import Mathlib

/-!
Shallow embedding of the dmf2json parser (src/dmf2json.py).

Strings are modelled as `List Char` (type `Chars`), Python dictionaries as
insertion-ordered association lists, and raising an exception as returning
`none` in the `Option` monad.
-/

set_option maxHeartbeats 1000000
set_option synthInstance.maxHeartbeats 400000

abbrev Chars := List Char

/-- Python whitespace characters recognised by `str.split()` / `str.strip()`
(ASCII fragment; the repository input format only contains ASCII). -/
def pyIsSpace (c : Char) : Bool :=
  c = ' ' || c = '\t' || c = '\n' || c = '\x0d' || c = '\x0b' || c = '\x0c'

/-- ASCII decimal digit test, the fragment of Python `str.isdigit` the
repository's inputs exercise. -/
def pyIsDigit (c : Char) : Bool :=
  '0' ≤ c && c ≤ '9'

/-- Drop matching characters from the end of a list. -/
def dropEnd (p : Char → Bool) (s : Chars) : Chars :=
  (s.reverse.dropWhile p).reverse

/-- Python `str.strip(chars)`: remove characters of `chars` from both ends. -/
def pyStrip (chars : Chars) (s : Chars) : Chars :=
  dropEnd (fun c => decide (c ∈ chars)) (s.dropWhile (fun c => decide (c ∈ chars)))

/-- Python `str.lstrip()` with no argument: remove leading whitespace. -/
def pyLstrip (s : Chars) : Chars :=
  s.dropWhile pyIsSpace

/-- Python `str.rstrip()` with no argument: remove trailing whitespace. -/
def pyRstrip (s : Chars) : Chars :=
  dropEnd pyIsSpace s

/-- Python `str.replace('-', '_')`. -/
def repl (s : Chars) : Chars :=
  s.map (fun c => if c = '-' then '_' else c)

/-- Does `pat` occur at the start of `s`? -/
def hasStart : Chars → Chars → Bool
  | [], _ => true
  | _ :: _, [] => false
  | p :: ps, c :: cs => p = c && hasStart ps cs

/-- Does `pat` occur anywhere inside `s`? -/
def hasSub (pat : Chars) : Chars → Bool
  | [] => hasStart pat []
  | c :: cs => hasStart pat (c :: cs) || hasSub pat cs

/-- Python `str.split(sep)` for a single-character separator (the
repository splits on `","`, `"x"` and `";"`; the model also uses it to
split the input text into lines at newlines). -/
def pySplitCh (d : Char) : Chars → List Chars
  | [] => [[]]
  | c :: rest =>
    if c = d then [] :: pySplitCh d rest
    else
      match pySplitCh d rest with
      | [] => [[c]]
      | h :: t => (c :: h) :: t

/-- Python `str.split(' = ')`, the only multi-character split in the
repository: split on each non-overlapping occurrence of `" = "`, left to
right. -/
def pySplitEq : Chars → List Chars
  | [] => [[]]
  | ' ' :: '=' :: ' ' :: rest => [] :: pySplitEq rest
  | c :: rest =>
    match pySplitEq rest with
    | [] => [[c]]
    | h :: t => (c :: h) :: t

/-- Worker for `pySplitWs`: `tok` is the reversed current token. -/
def pySplitWsAcc (tok : Chars) : Chars → List Chars
  | [] => if tok.isEmpty then [] else [tok.reverse]
  | c :: rest =>
    if pyIsSpace c then
      if tok.isEmpty then pySplitWsAcc [] rest
      else tok.reverse :: pySplitWsAcc [] rest
    else pySplitWsAcc (c :: tok) rest

/-- Python `str.split()` with no argument: split on whitespace runs,
discarding empty pieces. -/
def pySplitWs (s : Chars) : List Chars := pySplitWsAcc [] s

/-- Numeric value of an ASCII digit. -/
def digitVal (c : Char) : Nat :=
  c.toNat - '0'.toNat

/-- Digits of a Python integer literal after the first digit: a sequence of
digits with single underscores allowed between digits. -/
def pyDigitsGo (acc : Nat) : Chars → Option Nat
  | [] => some acc
  | '_' :: c :: rest =>
    if pyIsDigit c then pyDigitsGo (acc * 10 + digitVal c) rest else none
  | ['_'] => none
  | c :: rest =>
    if pyIsDigit c then pyDigitsGo (acc * 10 + digitVal c) rest else none

/-- An unsigned Python integer literal: a digit followed by digits with
single underscores between digits. -/
def pyIntCore : Chars → Option Nat
  | [] => none
  | c :: rest => if pyIsDigit c then pyDigitsGo (digitVal c) rest else none

/-- Python `int(str)`: strip whitespace, optional sign, digit sequence. -/
def pyInt (s : Chars) : Option Int :=
  let t := dropEnd pyIsSpace (s.dropWhile pyIsSpace)
  match t with
  | [] => none
  | c :: rest =>
    if c = '+' then (pyIntCore rest).map (fun n => (n : Int))
    else if c = '-' then (pyIntCore rest).map (fun n => -(n : Int))
    else (pyIntCore (c :: rest)).map (fun n => (n : Int))

/-- `to_ints` from dmf2json.py: `tuple(map(int, string.split(delimiter)))`;
`none` models the `ValueError` raised by `int` on a malformed piece. -/
def to_ints (s : Chars) (delim : Char) : Option (List Int) :=
  (pySplitCh delim s).mapM pyInt

/-- JSON-like values stored in the parsed records, mirroring the Python
values the parser produces: `None`, booleans, ints, tuples of ints (from
`to_ints`), lists of strings (from the `saved_params` split), strings,
lists, and ordered dictionaries. -/
inductive JVal where
  | null : JVal
  | bool (b : Bool) : JVal
  | int (n : Int) : JVal
  | tuple (l : List Int) : JVal
  | strs (l : List Chars) : JVal
  | str (s : Chars) : JVal
  | arr (l : List JVal) : JVal
  | obj (fields : List (Chars × JVal)) : JVal

/-- The hashable scalar values: the parsed values Python accepts as
dictionary keys (`None`, booleans, ints, tuples, strings).  Unhashable
values (lists, dicts) raise `TypeError` when used as keys. -/
inductive SVal where
  | null : SVal
  | bool (b : Bool) : SVal
  | int (n : Int) : SVal
  | tuple (l : List Int) : SVal
  | str (s : Chars) : SVal
  deriving DecidableEq

/-- Using a value as a dictionary key: `none` models the `TypeError`
raised on an unhashable value. -/
def toKey : JVal → Option SVal
  | .null => some .null
  | .bool b => some (.bool b)
  | .int n => some (.int n)
  | .tuple l => some (.tuple l)
  | .str s => some (.str s)
  | .strs _ => none
  | .arr _ => none
  | .obj _ => none

/-- The value a scalar key came from. -/
def SVal.toJVal : SVal → JVal
  | .null => .null
  | .bool b => .bool b
  | .int n => .int n
  | .tuple l => .tuple l
  | .str s => .str s

/-- A Python `OrderedDict` with string keys, as an insertion-ordered
association list. -/
abbrev Obj := List (Chars × JVal)

/-- Dictionary lookup (`d[k]` / `d.get(k)` / `k in d`). -/
def odGet {K : Type} [DecidableEq K] {V : Type} (k : K) : List (K × V) → Option V
  | [] => none
  | (k2, v) :: rest => if k2 = k then some v else odGet k rest

/-- Dictionary store `d[k] = v`: overwrite in place when the key exists,
append otherwise (Python dict insertion-order semantics). -/
def odSet {K : Type} [DecidableEq K] {V : Type} (k : K) (v : V) :
    List (K × V) → List (K × V)
  | [] => [(k, v)]
  | (k2, v2) :: rest =>
    if k2 = k then (k, v) :: rest else (k2, v2) :: odSet k v rest

/-- Dictionary removal `d.pop(k)` (ignoring the returned value). -/
def odRemove {K : Type} [DecidableEq K] {V : Type} (k : K) :
    List (K × V) → List (K × V)
  | [] => []
  | (k2, v2) :: rest =>
    if k2 = k then odRemove k rest else (k2, v2) :: odRemove k rest

/-- Python truthiness of the parsed values. -/
def truthy : JVal → Bool
  | .null => false
  | .bool b => b
  | .int n => n ≠ 0
  | .tuple l => !l.isEmpty
  | .strs l => !l.isEmpty
  | .str s => !s.isEmpty
  | .arr l => !l.isEmpty
  | .obj l => !l.isEmpty

/-- Truthiness of `d.get(k)`: a missing key (`None`) is falsy. -/
def jtruthy : Option JVal → Bool
  | none => false
  | some v => truthy v

/-- Insert into a set modelled as a duplicate-free list (Python `set.add`;
iteration order of the model is insertion order). -/
def setInsert {α : Type} [DecidableEq α] (x : α) (s : List α) : List α :=
  if x ∈ s then s else s ++ [x]

/-! ### Field-name and literal constants -/

def kType : Chars := "type".data
def kId : Chars := "id".data
def kControls : Chars := "controls".data
def kName : Chars := "name".data
def kCategory : Chars := "category".data
def kActions : Chars := "actions".data
def kCommand : Chars := "command".data
def kSavedParams : Chars := "saved_params".data
def kGroup : Chars := "group".data
def kGroups : Chars := "groups".data
def kMenus : Chars := "menus".data
def kIsPane : Chars := "is_pane".data

def eqSep : Chars := " = ".data

/-- `DEFAULT_VALUES_MAP` from dmf2json.py: membership test plus lookup of
the keyword literals. -/
def DEFAULT_VALUES_MAP (v : Chars) : Option JVal :=
  if v = "none".data then some JVal.null
  else if v = "false".data then some (JVal.bool false)
  else if v = "true".data then some (JVal.bool true)
  else none

/-- `DELIMITER_MAP` from dmf2json.py (each delimiter is a one-character
string in the source, modelled as the character). -/
def DELIMITER_MAP : List (Chars × Char) :=
  [( "anchor1".data, ','),
   ( "anchor2".data, ','),
   ( "pos".data, ','),
   ( "size".data, 'x'),
   ( "cell_span".data, 'x'),
   ( "cells".data, 'x'),
   ( "current_cell".data, 'x')]

/-! ### The two key/value splitters -/

/-- `DMFParser._parse_key_value`: key and optionally quote-surrounded value
separated by whitespace.  `none` models the `ValueError` raised by the
two-target tuple unpacking of `string.split()`. -/
def parse_key_value (s : Chars) : Option (Chars × Option Chars) :=
  if ' ' ∈ s then
    match pySplitWs s with
    | [k, v] => some (k, some (pyStrip [ '"'] v))
    | _ => none
  else some (s, none)

/-- `DMFParser._parse_key_eq_sign_value`: key and optionally
quote-surrounded value separated by the literal `" = "`.  `none` models the
`ValueError` raised by unpacking `string.split(' = ')`. -/
def parse_key_eq_sign_value (s : Chars) : Option (Chars × Chars) :=
  match pySplitEq s with
  | [k, v] => some (k, pyStrip [ '"'] v)
  | _ => none

/-! ### Attribute parsing -/

/-- The coercion chain of `DMFParser._parse_attribute` (applied after the
hyphen replacement and the `'\n"'` strip): keyword literal, then
delimiter-map tuple, then digit string, then the `saved_params` split, then
plain string.  `none` models the `ValueError` raised by `int`. -/
def attrValue (name value : Chars) : Option JVal :=
  match DEFAULT_VALUES_MAP value with
  | some j => some j
  | none =>
    match odGet name DELIMITER_MAP with
    | some delim => (to_ints value delim).map JVal.tuple
    | none =>
      if value ≠ [] && value.all pyIsDigit then
        (pyInt value).map JVal.int
      else if name = kSavedParams then
        some (JVal.strs (pySplitCh ';' value))
      else some (JVal.str value)

/-- The final store of `DMFParser._parse_attribute`: the `type` field is
special-cased (literal `MAIN` becomes `WINDOW`), everything else goes into
the element mapping under `name`. -/
def attrStore (name : Chars) (value : JVal) (elem : Obj) : Obj :=
  if name = kType then
    match value with
    | JVal.str s =>
      if s = "MAIN".data then odSet kType (JVal.str ( "WINDOW".data)) elem
      else odSet kType (JVal.str s) elem
    | v => odSet kType v elem
  else odSet name value elem

/-- `DMFParser._parse_attribute` acting on the current element. -/
def parse_attribute (line : Chars) (elem : Obj) : Option Obj := do
  let l := pyLstrip line
  let (name0, v0) ← parse_key_eq_sign_value l
  let name := repl name0
  let value := pyStrip [ '\n', '"'] (repl v0)
  let j ← attrValue name value
  pure (attrStore name j elem)

/-! ### The line-classification state machine (`DMFParser.parse_file`)

Python mutates element dictionaries through the `self.element` reference
after they have been appended to a category's `controls` list; the model
therefore keeps every element in an arena (`elems`) and stores arena
indices in the categories, materialising the records only after the parse
pass is done. -/

/-- A category record under construction: its `type`, optional `id`, and
the arena indices of its `controls`. -/
structure CatRec where
  ctype : Chars
  cid : Option Chars
  controls : List Nat


/-- Parser state: the element arena, the category arena, the three buckets
(`macrolists`, `menubars`, `windows`) as lists of category-arena indices in
creation order, and the current-category / current-element references. -/
structure PState where
  elems : List Obj
  cats : List CatRec
  macIdx : List Nat
  menuIdx : List Nat
  windowIdx : List Nat
  curCat : Option Nat
  curElem : Option Nat


def initState : PState := ⟨[], [], [], [], [], none, none⟩

/-- `DMFParser._parse_category`. -/
def parse_category (st : PState) (line : Chars) : Option PState := do
  let (ctype, idOpt) ← parse_key_value line
  let cid := match idOpt with
    | some i => if i.isEmpty then none else some i
    | none => none
  let ci := st.cats.length
  pure { st with
    cats := st.cats ++ [⟨ctype, cid, []⟩],
    macIdx := if ctype = "macro".data then st.macIdx ++ [ci] else st.macIdx,
    menuIdx := if ctype ≠ "macro".data && ctype = "menu".data then
      st.menuIdx ++ [ci] else st.menuIdx,
    windowIdx := if ctype ≠ "macro".data && ctype ≠ "menu".data &&
      ctype = "window".data then st.windowIdx ++ [ci] else st.windowIdx,
    curCat := some ci }

/-- `DMFParser._parse_element`; `none` models the `AttributeError` raised
when no category is open (`self.category` is `None`). -/
def parse_element (st : PState) (line : Chars) : Option PState := do
  let l := pyLstrip line
  let (etype, idOpt) ← parse_key_value l
  let ci ← st.curCat
  let cat ← st.cats.get? ci
  let elem : Obj := [(kType, JVal.str etype)] ++
    (match idOpt with
     | some i => if i.isEmpty then [] else [(kId, JVal.str i)]
     | none => [])
  let ei := st.elems.length
  pure { st with
    elems := st.elems ++ [elem],
    cats := st.cats.set ci { cat with controls := cat.controls ++ [ei] },
    curElem := some ei }

/-- One attribute line applied to the current element; `none` models the
`TypeError` raised when no element is open (`self.element` is `None`). -/
def parse_attribute_state (st : PState) (line : Chars) : Option PState := do
  let ei ← st.curElem
  let elem := st.elems.getD ei []
  let elem2 ← parse_attribute line elem
  pure { st with elems := st.elems.set ei elem2 }

/-- The per-line dispatch of `DMFParser.parse_file`: `rstrip`, skip blank
lines, then classify by leading tabs. -/
def stepLine (st : PState) (rawLine : Chars) : Option PState :=
  let line := pyRstrip rawLine
  if line.isEmpty then some st
  else if hasStart ( "\t\t".data) line then parse_attribute_state st line
  else if hasStart ( "\t".data) line then parse_element st line
  else parse_category st line

/-- The lines of the input text, as Python's file iteration plus the
`rstrip` in the loop produces them. -/
def pyLines (text : Chars) : List Chars :=
  pySplitCh '\n' text

/-- The classification loop of `DMFParser.parse_file`. -/
def runLines (text : Chars) : Option PState :=
  (pyLines text).foldlM stepLine initState

/-- One step of the trailing `is_pane` pass of `DMFParser.parse_file`:
inspect the first control of a window category; `none` models the
`IndexError` raised by `window['controls'][0]` on an empty list. -/
def paneStep (cats : List CatRec) (elems : List Obj) (ci : Nat) :
    Option (List Obj) := do
  let cat ← cats.get? ci
  let i0 ← cat.controls.head?
  let elem := elems.getD i0 []
  match odGet kIsPane elem with
  | none => pure elems
  | some v =>
    let elem1 := odRemove kIsPane elem
    let elem2 := if truthy v then odSet kType (JVal.str ( "PANE".data)) elem1
      else elem1
    pure (elems.set i0 elem2)

/-- The trailing `is_pane` pass of `DMFParser.parse_file`. -/
def panePass (st : PState) : Option PState := do
  let elems2 ← st.windowIdx.foldlM (paneStep st.cats) st.elems
  pure { st with elems := elems2 }

/-- `DMFParser.parse_file`: the classification loop followed by the
`is_pane` pass. -/
def parse_file (text : Chars) : Option PState := do
  let st ← runLines text
  panePass st

/-! ### Materialisation of the parsed state -/

/-- The dictionary a category record denotes: `type`, optional `id`,
`controls`. -/
def matCat (st : PState) (cat : CatRec) : Obj :=
  [(kType, JVal.str cat.ctype)] ++
  (match cat.cid with
   | some i => [(kId, JVal.str i)]
   | none => []) ++
  [(kControls, JVal.arr (cat.controls.map (fun i => JVal.obj (st.elems.getD i []))))]

def bucketOf (st : PState) (idxs : List Nat) : List Obj :=
  idxs.map (fun ci => matCat st (st.cats.getD ci ⟨[], none, []⟩))

def macsOf (st : PState) : List Obj := bucketOf st st.macIdx
def menubarsOf (st : PState) : List Obj := bucketOf st st.menuIdx
def windowsOf (st : PState) : List Obj := bucketOf st st.windowIdx

/-! ### `DMFParser.post_process` -/

/-- The synthesized category record
`{name: category_name, command: "", saved_params: "is_checked", actions: []}`. -/
def synthCat (cname : JVal) : Obj :=
  [(kName, cname),
   (kCommand, JVal.str []),
   (kSavedParams, JVal.str ( "is_checked".data)),
   (kActions, JVal.arr [])]

/-- How a menu entry carrying a `category` field ends up in the `actions`
list: retagged `ACTION` when its `name` is truthy, collapsed to a bare
`{type: SEPARATOR}` record otherwise. -/
def collapseEntry (menu : Obj) : JVal :=
  let menu1 := odRemove kCategory menu
  if jtruthy (odGet kName menu1) then
    JVal.obj (odSet kType (JVal.str ( "ACTION".data)) menu1)
  else JVal.obj [(kType, JVal.str ( "SEPARATOR".data))]

/-- The transformed categoryless menu entry: retagged `MENU`, empty
`actions`, `command` and `saved_params` removed. -/
def plainEntry (menu : Obj) : Obj :=
  odRemove kSavedParams (odRemove kCommand
    (odSet kActions (JVal.arr []) (odSet kType (JVal.str ( "MENU".data)) menu)))

/-- The categoryless branch of the menu-entry loop: store the transformed
entry under its own `name`.  `none` models the `KeyError` raised by
`menu['name']` when the name is absent and the `TypeError` of an
unhashable key. -/
def menuStepPlain (cats : List (SVal × Obj)) (gs : List SVal) (menu : Obj) :
    Option (List (SVal × Obj) × List SVal) := do
  let nameV ← odGet kName (plainEntry menu)
  let key ← toKey nameV
  pure (odSet key (plainEntry menu) cats, gs)

/-- The `groups.add` part of the category branch: when the entry's `name`
is truthy and its `group` is truthy, add the group value to the set. -/
def groupAdd (gs : List SVal) (menu1 : Obj) : Option (List SVal) :=
  if jtruthy (odGet kName menu1) then
    match odGet kGroup menu1 with
    | some gv =>
      if truthy gv then (toKey gv).map (fun gk => setInsert gk gs)
      else some gs
    | none => some gs
  else some gs

/-- `categories[category_name]['actions'].append(menu)`: append the
collapsed entry to the `actions` list of the record stored under `ck`. -/
def appendAction (ck : SVal) (entry : JVal) (cats1 : List (SVal × Obj)) :
    Option (List (SVal × Obj)) := do
  let rec0 ← odGet ck cats1
  let actsV ← odGet kActions rec0
  match actsV with
  | JVal.arr acts =>
    some (odSet ck (odSet kActions (JVal.arr (acts ++ [entry])) rec0) cats1)
  | _ => none

/-- The category branch of the menu-entry loop: pop `category`, lazily
synthesize the category record, handle groups, collapse the entry and
append it to the category's `actions`. -/
def menuStepCat (cats : List (SVal × Obj)) (gs : List SVal) (menu : Obj)
    (cnameV : JVal) : Option (List (SVal × Obj) × List SVal) := do
  let key ← toKey cnameV
  let menu1 := odRemove kCategory menu
  let cats1 := match odGet key cats with
    | some _ => cats
    | none => cats ++ [(key, synthCat cnameV)]
  let gs1 ← groupAdd gs menu1
  let cats2 ← appendAction key (collapseEntry menu) cats1
  pure (cats2, gs1)

/-- The body of the menu-bar loop of `DMFParser.post_process`, one menu
entry at a time.  The state is the insertion-ordered `categories` mapping
and the `groups` set. -/
def menuStep (acc : List (SVal × Obj) × List SVal) (menu : Obj) :
    Option (List (SVal × Obj) × List SVal) :=
  match odGet kCategory menu with
  | none => menuStepPlain acc.1 acc.2 menu
  | some cnameV => menuStepCat acc.1 acc.2 menu cnameV

/-- The whole menu-entry loop. -/
def processMenus (entries : List Obj) :
    Option (List (SVal × Obj) × List SVal) :=
  entries.foldlM menuStep ([], [])

/-- A list element that must be a dictionary (Python raises `TypeError`
otherwise when it is subscripted). -/
def asObj : JVal → Option Obj
  | JVal.obj o => some o
  | _ => none

/-- The macro-list pass of `DMFParser.post_process` on one record. -/
def post_maclist (m : Obj) : Option Obj := do
  let m1 := odSet kType (JVal.str ( "MACROLIST".data)) m
  let cv ← odGet kControls m1
  match cv with
  | JVal.arr l =>
    let m2 := odRemove kControls m1
    let items ← l.mapM (fun j => do
      let o ← asObj j
      pure (JVal.obj (odSet kType (JVal.str ( "MACRO".data)) o)))
    pure (odSet ( "macros".data) (JVal.arr items) m2)
  | _ => none

/-- The menu-bar pass of `DMFParser.post_process` on one record. -/
def post_menubar (mb : Obj) : Option Obj := do
  let cv ← odGet kControls mb
  match cv with
  | JVal.arr l =>
    let mb1 := odRemove kControls mb
    let entries ← l.mapM asObj
    let (cats, gs) ← processMenus entries
    let mb2 := odSet kType (JVal.str ( "MENUBAR".data)) mb1
    let mb3 := odSet kMenus (JVal.arr (cats.map (fun p => JVal.obj p.2))) mb2
    pure (odSet kGroups (JVal.arr (gs.map SVal.toJVal)) mb3)
  | _ => none

/-- The window pass of `DMFParser.post_process` on one record: promote the
first control to be the window record itself, with the remaining controls
as its `controls` list.  `none` models the `IndexError` of
`controls.pop(0)` on an empty list. -/
def post_window (w : Obj) : Option Obj := do
  let cv ← odGet kControls w
  match cv with
  | JVal.arr [] => none
  | JVal.arr (first :: rest) =>
    let o ← asObj first
    pure (odSet kControls (JVal.arr rest) o)
  | _ => none

/-- `DMFParser.post_process` over the three buckets. -/
def post_process (macs mbs ws : List Obj) :
    Option (List Obj × List Obj × List Obj) := do
  let macs2 ← macs.mapM post_maclist
  let mbs2 ← mbs.mapM post_menubar
  let ws2 ← ws.mapM post_window
  pure (macs2, mbs2, ws2)

/-- `DMFParser.parse`: the full pipeline from raw text to the three
normalised buckets. -/
def pipeline (text : Chars) : Option (List Obj × List Obj × List Obj) := do
  let st ← parse_file text
  post_process (macsOf st) (menubarsOf st) (windowsOf st)

/-! ### Definitions used to state the claims -/

/-- The input of end-to-end scenario 1. -/
def c1input : Chars := "window \"main\"\n\tMAIN\n\t\tis_pane = \"true\"\n".data

/-- The window record the pipeline actually produces for `c1input`. -/
def c1window : Obj := [(kType, JVal.str ( "PANE".data)), (kControls, JVal.arr [])]

/-- Does a menu entry reference the category stored under key `ck`? -/
def refsCat (ck : SVal) (e : Obj) : Bool :=
  ((odGet kCategory e).bind toKey) == some ck

/-- The action records that the entries referencing `ck` contribute, in
entry order. -/
def collapseAll (ck : SVal) (entries : List Obj) : List JVal :=
  (entries.filter (refsCat ck)).map collapseEntry

/-- The dictionary key a menu entry is stored under by the menu-bar loop:
its `category` value when present, otherwise its `name` value. -/
def keyOf (e : Obj) : Option SVal :=
  (match odGet kCategory e with
   | some c => some c
   | none => odGet kName e).bind toKey

/-- First-seen insertion of a key into the ordered key list. -/
def insKey (acc : List SVal) (k : SVal) : List SVal :=
  if k ∈ acc then acc else acc ++ [k]

/-- The `actions` list of a category record (empty for a malformed one;
every record the loop stores has a well-formed `actions` list). -/
def actionsOf (rec0 : Obj) : List JVal :=
  match odGet kActions rec0 with
  | some (JVal.arr l) => l
  | _ => []

/-- A record is free of the `category` field, as are all the dictionaries
in its `actions` list. -/
def catFree (rec0 : Obj) : Prop :=
  odGet kCategory rec0 = none ∧
  ∀ a : Obj, JVal.obj a ∈ actionsOf rec0 → odGet kCategory a = none

/-- The `menus` list of a processed menu-bar record. -/
def menusOf (mb : Obj) : List JVal :=
  match odGet kMenus mb with
  | some (JVal.arr l) => l
  | _ => []

/-! ### Dictionary lemmas -/

section DictLemmas

variable {K : Type} [DecidableEq K] {V : Type}

theorem odGet_odSet_self (k : K) (v : V) (l : List (K × V)) :
    odGet k (odSet k v l) = some v := by
  induction l with
  | nil => simp [odSet, odGet]
  | cons p rest ih =>
    obtain ⟨k2, v2⟩ := p
    by_cases h : k2 = k <;> simp [odSet, odGet, h, ih]

theorem odGet_odSet_ne {k k2 : K} (v : V) (l : List (K × V)) (h : k2 ≠ k) :
    odGet k (odSet k2 v l) = odGet k l := by
  induction l with
  | nil => simp [odSet, odGet, h]
  | cons p rest ih =>
    obtain ⟨k3, v3⟩ := p
    by_cases h3 : k3 = k2
    · subst h3
      simp [odSet, odGet, h]
    · by_cases h4 : k3 = k <;> simp [odSet, odGet, h3, h4, Ne.symm h, ih]

theorem odSet_odSet_self (k : K) (v v2 : V) (l : List (K × V)) :
    odSet k v (odSet k v2 l) = odSet k v l := by
  induction l with
  | nil => simp [odSet]
  | cons p rest ih =>
    obtain ⟨k3, v3⟩ := p
    by_cases h : k3 = k <;> simp [odSet, h, ih]

theorem odGet_odRemove_self (k : K) (l : List (K × V)) :
    odGet k (odRemove k l) = none := by
  induction l with
  | nil => simp [odRemove, odGet]
  | cons p rest ih =>
    obtain ⟨k2, v2⟩ := p
    by_cases h : k2 = k <;> simp [odRemove, odGet, h, ih]

theorem odGet_odRemove_ne {k k2 : K} (l : List (K × V)) (h : k2 ≠ k) :
    odGet k (odRemove k2 l) = odGet k l := by
  induction l with
  | nil => simp [odRemove, odGet]
  | cons p rest ih =>
    obtain ⟨k3, v3⟩ := p
    by_cases h3 : k3 = k2
    · subst h3
      simp [odRemove, odGet, h, Ne.symm h, ih]
    · by_cases h4 : k3 = k <;> simp [odRemove, odGet, h3, h4, Ne.symm h, ih]

theorem odGet_append_of_none {k : K} {l : List (K × V)} (l2 : List (K × V))
    (h : odGet k l = none) : odGet k (l ++ l2) = odGet k l2 := by
  induction l with
  | nil => simp
  | cons p rest ih =>
    obtain ⟨k2, v2⟩ := p
    by_cases h2 : k2 = k
    · simp [odGet, h2] at h
    · simp [odGet, h2] at h ⊢
      exact ih h

theorem odGet_append_of_some {k : K} {l : List (K × V)} {v : V}
    (l2 : List (K × V)) (h : odGet k l = some v) :
    odGet k (l ++ l2) = some v := by
  induction l with
  | nil => simp [odGet] at h
  | cons p rest ih =>
    obtain ⟨k2, v2⟩ := p
    by_cases h2 : k2 = k
    · simp [odGet, h2] at h ⊢
      exact h
    · simp [odGet, h2] at h ⊢
      exact ih h

theorem keys_odSet_of_some {k : K} {l : List (K × V)} (v : V)
    (h : odGet k l ≠ none) :
    (odSet k v l).map Prod.fst = l.map Prod.fst := by
  induction l with
  | nil => simp [odGet] at h
  | cons p rest ih =>
    obtain ⟨k2, v2⟩ := p
    by_cases h2 : k2 = k
    · simp [odSet, h2]
    · simp [odGet, h2] at h
      simp [odSet, h2, ih h]

theorem keys_odSet_of_none {k : K} {l : List (K × V)} (v : V)
    (h : odGet k l = none) :
    (odSet k v l).map Prod.fst = l.map Prod.fst ++ [k] := by
  induction l with
  | nil => simp [odSet]
  | cons p rest ih =>
    obtain ⟨k2, v2⟩ := p
    by_cases h2 : k2 = k
    · simp [odGet, h2] at h
    · simp [odGet, h2] at h
      simp [odSet, h2, ih h]

theorem odGet_isSome_iff_mem_keys (k : K) (l : List (K × V)) :
    (odGet k l).isSome = true ↔ k ∈ l.map Prod.fst := by
  induction l with
  | nil => simp [odGet]
  | cons p rest ih =>
    obtain ⟨k2, v2⟩ := p
    by_cases h2 : k2 = k <;> simp [odGet, h2, ih]
    exact fun h => (h2 h.symm).elim

end DictLemmas

/-! ### Splitting and stripping lemmas -/

theorem dropWhile_append_cons {p : Char → Bool} {c : Char} (xs ys : Chars)
    (h : p c = false) :
    List.dropWhile p (xs ++ c :: ys) = List.dropWhile p xs ++ c :: ys := by
  induction xs with
  | nil => simp [List.dropWhile, h]
  | cons a rest ih =>
    by_cases ha : p a = true <;> simp [List.dropWhile, ha, ih]

theorem dropEnd_cons_of_false {p : Char → Bool} {c : Char} (t : Chars)
    (h : p c = false) : dropEnd p (c :: t) = c :: dropEnd p t := by
  unfold dropEnd
  rw [List.reverse_cons, dropWhile_append_cons _ _ h]
  simp

theorem pyStrip_cons_of_not_mem {chars : Chars} {c : Char} (t : Chars)
    (h : c ∉ chars) :
    pyStrip chars (c :: t) =
      c :: dropEnd (fun x => decide (x ∈ chars)) t := by
  unfold pyStrip
  rw [List.dropWhile_cons]
  simp only [decide_eq_true_eq, h, if_false]
  exact dropEnd_cons_of_false t (by simp [h])

theorem pySplitWsAcc_token {k : Chars} (v tok : Chars)
    (h : ∀ x ∈ k, pyIsSpace x = false) (hne : tok.reverse ++ k ≠ []) :
    pySplitWsAcc tok (k ++ ' ' :: v) =
      (tok.reverse ++ k) :: pySplitWsAcc [] v := by
  induction k generalizing tok with
  | nil =>
    cases tok with
    | nil => simp at hne
    | cons t ts =>
      show pySplitWsAcc (t :: ts) ( ' ' :: v) =
        ((t :: ts).reverse ++ []) :: pySplitWsAcc [] v
      rw [pySplitWsAcc]
      simp [pyIsSpace]
  | cons c cs ih =>
    rw [List.cons_append, pySplitWsAcc]
    simp only [h c (by simp), if_false]
    rw [ih (c :: tok) (fun x hx => h x (by simp [hx])) (by simp)]
    simp

theorem pySplitWsAcc_last {v : Chars} (tok : Chars)
    (h : ∀ x ∈ v, pyIsSpace x = false) (hne : tok.reverse ++ v ≠ []) :
    pySplitWsAcc tok v = [tok.reverse ++ v] := by
  induction v generalizing tok with
  | nil =>
    cases tok with
    | nil => simp at hne
    | cons t ts =>
      rw [pySplitWsAcc]
      simp
  | cons c cs ih =>
    rw [pySplitWsAcc]
    simp only [h c (by simp), if_false]
    rw [ih (c :: tok) (fun x hx => h x (by simp [hx])) (by simp)]
    simp

theorem pySplitWs_token {k : Chars} (v : Chars) (hk : k ≠ [])
    (h : ∀ x ∈ k, pyIsSpace x = false) :
    pySplitWs (k ++ ' ' :: v) = k :: pySplitWs v := by
  unfold pySplitWs
  rw [pySplitWsAcc_token v [] h (by simpa using hk)]
  simp

theorem pySplitWs_single {v : Chars} (hv : v ≠ [])
    (h : ∀ x ∈ v, pyIsSpace x = false) : pySplitWs v = [v] := by
  unfold pySplitWs
  rw [pySplitWsAcc_last [] h (by simpa using hv)]
  simp

theorem pySplitEq_cons (c : Char) (rest : Chars)
    (h : hasStart eqSep (c :: rest) = false) :
    pySplitEq (c :: rest) =
      match pySplitEq rest with
      | [] => [[c]]
      | h :: t => (c :: h) :: t := by
  rw [pySplitEq.eq_def]
  split
  · rename_i heq
    exact absurd heq (by simp)
  · rename_i r heq
    injection heq with h1 h2
    subst h1
    subst h2
    simp [hasStart, eqSep] at h
  · rename_i c2 rest2 hno heq
    injection heq with h1 h2
    subst h1
    subst h2
    rfl

theorem pySplitEq_no_sub {s : Chars} (h : hasSub eqSep s = false) :
    pySplitEq s = [s] := by
  induction s with
  | nil => rfl
  | cons c cs ih =>
    rw [hasSub] at h
    simp only [Bool.or_eq_false_iff] at h
    rw [pySplitEq_cons c cs h.1, ih h.2]

theorem eqSplit_append (k v : Chars) (hk : '=' ∉ k) :
    pySplitEq (k ++ (eqSep ++ v)) = k :: pySplitEq v := by
  induction k with
  | nil =>
    show pySplitEq ( ' ' :: '=' :: ' ' :: v) = [] :: pySplitEq v
    rfl
  | cons c cs ih =>
    have hcs : '=' ∉ cs := fun hx => hk (by simp [hx])
    have hstart : hasStart eqSep (c :: (cs ++ (eqSep ++ v))) = false := by
      cases cs with
      | nil => simp [hasStart, eqSep]
      | cons d cs2 =>
        have hd : d ≠ '=' := fun hdx => hk (by simp [hdx])
        simp [hasStart, eqSep, Ne.symm hd]
    rw [List.cons_append, pySplitEq_cons c _ hstart, ih hcs]

theorem parse_key_eq_sign_value_split (k v : Chars) (hk : '=' ∉ k)
    (hv : hasSub eqSep v = false) :
    parse_key_eq_sign_value (k ++ (eqSep ++ v)) = some (k, pyStrip [ '"'] v) := by
  unfold parse_key_eq_sign_value
  rw [eqSplit_append k v hk, pySplitEq_no_sub hv]

theorem parse_key_eq_sign_value_no_sep (s : Chars) (h : hasSub eqSep s = false) :
    parse_key_eq_sign_value s = none := by
  unfold parse_key_eq_sign_value
  rw [pySplitEq_no_sub h]

theorem attrStore_of_ne_MAIN (name : Chars) (v : JVal) (elem : Obj)
    (h : v ≠ JVal.str ( "MAIN".data)) :
    attrStore name v elem = odSet name v elem := by
  unfold attrStore
  by_cases hk : name = kType
  · simp only [hk, if_true]
    cases v with
    | str s =>
      have hs : s ≠ "MAIN".data := fun hs => h (by rw [hs])
      simp [hs]
    | null => rfl
    | bool b => rfl
    | int n => rfl
    | tuple l => rfl
    | strs l => rfl
    | arr l => rfl
    | obj o => rfl
  · simp [hk]

theorem parse_attribute_eq (name vp : Chars) (elem : Obj) (c : Char)
    (cs : Chars) (hn : name = c :: cs) (hc : pyIsSpace c = false)
    (he : '=' ∉ name) (hv : hasSub eqSep vp = false) :
    parse_attribute ( '\t' :: '\t' :: (name ++ (eqSep ++ vp))) elem =
      (attrValue (repl name)
        (pyStrip [ '\n', '"'] (repl (pyStrip [ '"'] vp)))).map
        (fun j => attrStore (repl name) j elem) := by
  subst hn
  have ht : pyIsSpace '\t' = true := rfl
  have h1 : pyLstrip ( '\t' :: '\t' :: ((c :: cs) ++ (eqSep ++ vp))) =
      (c :: cs) ++ (eqSep ++ vp) := by
    unfold pyLstrip
    simp [List.dropWhile_cons, ht, hc]
  have h2 := parse_key_eq_sign_value_split (c :: cs) vp he hv
  unfold parse_attribute
  rw [h1]
  simp only [h2]
  cases hA : attrValue (repl (c :: cs))
      (pyStrip [ '\n', '"'] (repl (pyStrip [ '"'] vp))) with
  | none => simp [Option.bind, hA]
  | some j => simp [Option.bind, hA]

/-! ### Claims -/

/-- Claim C9: for every string made of a spaceless key, one space and a
spaceless (optionally quote-wrapped) value, `_parse_key_value` returns the
pair with the quotes stripped from the value; for every string containing
no space it returns the string paired with `None`. -/
theorem C9_parse_key_value :
    (∀ k v : Chars, k ≠ [] → v ≠ [] →
      (∀ x ∈ k, pyIsSpace x = false) → (∀ x ∈ v, pyIsSpace x = false) →
      parse_key_value (k ++ ' ' :: v) = some (k, some (pyStrip [ '"'] v))) ∧
    (∀ s : Chars, ' ' ∉ s → parse_key_value s = some (s, none)) := by
  constructor
  · intro k v hk hv hks hvs
    unfold parse_key_value
    rw [if_pos (by simp)]
    rw [pySplitWs_token v hk hks, pySplitWs_single hv hvs]
  · intro s hs
    unfold parse_key_value
    rw [if_neg hs]

/-- Witness for C9 at the inputs of the repository's unit tests. -/
theorem C9_witness :
    parse_key_value ( "eyes \"blue\"".data) =
      some ( "eyes".data, some (pyStrip [ '"'] ( "\"blue\"".data))) ∧
    parse_key_value ( "mouth".data) = some ( "mouth".data, none) :=
  ⟨C9_parse_key_value.1 ( "eyes".data) ( "\"blue\"".data) (by decide)
      (by decide) (by decide) (by decide),
   C9_parse_key_value.2 ( "mouth".data) (by decide)⟩

/-- Claim C8: for every string of the form `k = v` (key without `=`, value
without the separator), `_parse_key_eq_sign_value` returns the pair with
surrounding quotes stripped from the value, and for every string not
containing `" = "` it raises (`none`). -/
theorem C8_parse_key_eq_sign_value :
    (∀ k v : Chars, '=' ∉ k → hasSub eqSep v = false →
      parse_key_eq_sign_value (k ++ (eqSep ++ v)) = some (k, pyStrip [ '"'] v)) ∧
    (∀ s : Chars, hasSub eqSep s = false → parse_key_eq_sign_value s = none) :=
  ⟨fun k v hk hv => parse_key_eq_sign_value_split k v hk hv,
   fun s hs => parse_key_eq_sign_value_no_sep s hs⟩

/-- Witness for C8 at the inputs of the repository's unit tests. -/
theorem C8_witness :
    parse_key_eq_sign_value ( "eyes = \"blue\"".data) =
      some ( "eyes".data, pyStrip [ '"'] ( "\"blue\"".data)) ∧
    parse_key_eq_sign_value ( "mouth".data) = none :=
  ⟨C8_parse_key_eq_sign_value.1 ( "eyes".data) ( "\"blue\"".data)
      (by decide) (by decide),
   C8_parse_key_eq_sign_value.2 ( "mouth".data) (by decide)⟩

/-- Counterexample to claim C3: the header line `window  "main"` contains
two spaces, yet `_parse_key_value` parses it without error (Python
`str.split()` collapses whitespace runs). -/
theorem C3_counterexample :
    List.count ' ' ( "window  \"main\"".data) = 2 ∧
    parse_key_value ( "window  \"main\"".data) =
      some ( "window".data, some ( "main".data)) := by
  constructor
  · rfl
  · rfl

/-- Claim C3 (amended): a category/element header line is a hard parse
error exactly when it contains a space and whitespace-splitting does not
produce exactly two tokens; consecutive spaces collapse, so a line with
more than one space can still parse. -/
theorem C3_header_error_iff (s : Chars) :
    parse_key_value s = none ↔ (' ' ∈ s ∧ (pySplitWs s).length ≠ 2) := by
  unfold parse_key_value
  by_cases hm : ' ' ∈ s
  · rw [if_pos hm]
    cases h : pySplitWs s with
    | nil => simp [h, hm]
    | cons a t =>
      cases t with
      | nil => simp [h, hm]
      | cons b t2 =>
        cases t2 with
        | nil => simp [h, hm]
        | cons d t3 => simp [h, hm]
  · rw [if_neg hm]
    simp [hm]

/-- Counterexample to claim C1: on the scenario-1 input the pipeline
produces exactly one window record, but that record has no `id` field at
all — the promotion step replaces the category dictionary (which held
`id: "main"`) with the first child element, discarding the id. -/
theorem C1_counterexample :
    pipeline c1input = some ([], [], [c1window]) ∧ odGet kId c1window = none :=
  ⟨rfl, rfl⟩

/-- Claim C1 (amended): on the scenario-1 input the pipeline produces
exactly one window record `{type: "PANE", controls: []}` — type `PANE` and
empty controls as claimed, but with no `id` field, because the promotion
step replaces the window category (and its id) by its first child. -/
theorem C1_scenario1 :
    pipeline c1input =
      some ([], [],
        [[(kType, JVal.str ( "PANE".data)), (kControls, JVal.arr [])]]) := rfl

/-- Claim C7: an input whose parse yields a window category with zero
child elements makes the pipeline fail fast — already the `is_pane` pass
of `parse_file` raises (`window['controls'][0]` on an empty list). -/
theorem C7_empty_window_fails (text : Chars) (st : PState) (ci : Nat)
    (cat : CatRec) (hrun : runLines text = some st) (hw : ci ∈ st.windowIdx)
    (hcat : st.cats.get? ci = some cat) (hempty : cat.controls = []) :
    parse_file text = none := by
  have hstep : ∀ elems, paneStep st.cats elems ci = none := by
    intro elems
    unfold paneStep
    rw [hcat]
    simp [Option.bind, hempty]
  have hfold : ∀ l (b : List Obj), ci ∈ l →
      List.foldlM (paneStep st.cats) b l = none := by
    intro l
    induction l with
    | nil => intro b hmem; simp at hmem
    | cons x xs ih =>
      intro b hmem
      rw [List.foldlM_cons]
      rcases List.mem_cons.mp hmem with h1 | h2
      · subst h1
        rw [hstep b]
        rfl
      · cases hx : paneStep st.cats b x with
        | none => rfl
        | some b2 => simpa using ih b2 h2
  unfold parse_file
  rw [hrun]
  show panePass st = none
  unfold panePass
  rw [hfold st.windowIdx st.elems hw]
  rfl

/-- Witness for C7: the one-line input `window "w"` produces a window
category with no elements, and the pipeline errors on it. -/
theorem C7_witness : parse_file ( "window \"w\"".data) = none :=
  C7_empty_window_fails ( "window \"w\"".data)
    ⟨[], [⟨ "window".data, some ( "w".data), []⟩], [], [], [0], some 0, none⟩
    0 ⟨ "window".data, some ( "w".data), []⟩ rfl (by decide) rfl rfl

/-! ### Coercion-chain lemmas for the attribute claims -/

theorem DEFAULT_VALUES_MAP_cons_none {c : Char} (w : Chars)
    (h1 : c ≠ 'n') (h2 : c ≠ 'f') (h3 : c ≠ 't') :
    DEFAULT_VALUES_MAP (c :: w) = none := by
  unfold DEFAULT_VALUES_MAP
  rw [if_neg, if_neg, if_neg]
  · intro h
    injection h with ha _
    exact h3 ha
  · intro h
    injection h with ha _
    exact h2 ha
  · intro h
    injection h with ha _
    exact h1 ha

theorem pySplitCh_head_ne (d c : Char) (w : Chars) (h : c ≠ d) :
    ∃ u t, pySplitCh d (c :: w) = (c :: u) :: t := by
  rw [pySplitCh]
  rw [if_neg h]
  cases pySplitCh d w with
  | nil => exact ⟨[], [], rfl⟩
  | cons u t => exact ⟨u, t, rfl⟩

theorem pyInt_underscore (u : Chars) : pyInt ( '_' :: u) = none := by
  unfold pyInt
  rw [show List.dropWhile pyIsSpace ( '_' :: u) = '_' :: u from by
    simp [List.dropWhile, pyIsSpace]]
  rw [dropEnd_cons_of_false _ (by decide)]
  simp [pyIntCore, pyIsDigit]

theorem mapM_head_none {x : Chars} (xs : List Chars) (h : pyInt x = none) :
    List.mapM pyInt (x :: xs) = none := by
  simp [List.mapM, List.mapM.loop, h]

theorem attrValue_underscore_tuple (name : Chars) (d : Char) (w : Chars)
    (hd : odGet name DELIMITER_MAP = some d) (hdc : d ≠ '_') :
    attrValue name ( '_' :: w) = none := by
  unfold attrValue
  rw [DEFAULT_VALUES_MAP_cons_none w (by decide) (by decide) (by decide), hd]
  show (to_ints ( '_' :: w) d).map JVal.tuple = none
  obtain ⟨u, t, hsplit⟩ := pySplitCh_head_ne d '_' w (Ne.symm hdc)
  unfold to_ints
  rw [hsplit, mapM_head_none t (pyInt_underscore u)]
  rfl

theorem DELIM_get {name : Chars} {d : Char}
    (hmem : (name, d) ∈ DELIMITER_MAP) :
    odGet name DELIMITER_MAP = some d := by
  fin_cases hmem <;> rfl

theorem DELIM_ne_underscore {name : Chars} {d : Char}
    (hmem : (name, d) ∈ DELIMITER_MAP) : d ≠ '_' := by
  fin_cases hmem <;> decide

theorem DELIM_repl {name : Chars} {d : Char}
    (hmem : (name, d) ∈ DELIMITER_MAP) : repl name = name := by
  fin_cases hmem <;> rfl

theorem DELIM_shape {name : Chars} {d : Char}
    (hmem : (name, d) ∈ DELIMITER_MAP) :
    ∃ c2 cs2, name = c2 :: cs2 ∧ pyIsSpace c2 = false := by
  fin_cases hmem <;> exact ⟨_, _, rfl, by decide⟩

theorem DELIM_no_eq {name : Chars} {d : Char}
    (hmem : (name, d) ∈ DELIMITER_MAP) : '=' ∉ name := by
  fin_cases hmem <;> decide

/-- Claim C10: for a field in the delimiter map whose raw value starts
with a negative number (`"-3,4"` style: a hyphen then a digit), parsing
the attribute raises — the hyphen is replaced by an underscore before
`to_ints`, and Python `int` rejects `"_3"`. -/
theorem C10_negative_tuple_error (name : Chars) (d : Char) (elem : Obj)
    (c : Char) (rest : Chars) (hmem : (name, d) ∈ DELIMITER_MAP)
    (hc : pyIsDigit c = true)
    (hsub : hasSub eqSep ( '"' :: '-' :: c :: rest) = false) :
    parse_attribute
      ( '\t' :: '\t' :: (name ++ (eqSep ++ ( '"' :: '-' :: c :: rest))))
      elem = none := by
  have hcq : c ≠ '"' := by
    intro h
    rw [h] at hc
    exact absurd hc (by decide)
  have hch : c ≠ '-' := by
    intro h
    rw [h] at hc
    exact absurd hc (by decide)
  have hcn : c ≠ '\n' := by
    intro h
    rw [h] at hc
    exact absurd hc (by decide)
  have s1 : pyStrip [ '"'] ( '"' :: '-' :: c :: rest) =
      '-' :: c :: dropEnd (fun x => decide (x ∈ ( [ '"'] : Chars))) rest := by
    unfold pyStrip
    rw [show List.dropWhile (fun x => decide (x ∈ ( [ '"'] : Chars)))
        ( '"' :: '-' :: c :: rest) = '-' :: c :: rest from by
      simp [List.dropWhile]]
    rw [dropEnd_cons_of_false _ (by decide),
        dropEnd_cons_of_false _ (by simp [hcq])]
  have s2 : repl ( '-' :: c ::
      dropEnd (fun x => decide (x ∈ ( [ '"'] : Chars))) rest) =
      '_' :: c :: repl (dropEnd (fun x => decide (x ∈ ( [ '"'] : Chars))) rest) := by
    simp [repl, hch]
  have s3 : pyStrip [ '\n', '"'] ( '_' :: c ::
      repl (dropEnd (fun x => decide (x ∈ ( [ '"'] : Chars))) rest)) =
      '_' :: c :: dropEnd (fun x => decide (x ∈ ( [ '\n', '"'] : Chars)))
        (repl (dropEnd (fun x => decide (x ∈ ( [ '"'] : Chars))) rest)) := by
    unfold pyStrip
    rw [show List.dropWhile (fun x => decide (x ∈ ( [ '\n', '"'] : Chars)))
        ( '_' :: c :: repl (dropEnd (fun x => decide (x ∈ ( [ '"'] : Chars))) rest)) =
        '_' :: c :: repl (dropEnd (fun x => decide (x ∈ ( [ '"'] : Chars))) rest) from by
      simp [List.dropWhile]]
    rw [dropEnd_cons_of_false _ (by decide),
        dropEnd_cons_of_false _ (by simp [hcn, hcq])]
  obtain ⟨c2, cs2, hshape, hc2⟩ := DELIM_shape hmem
  rw [parse_attribute_eq name _ elem c2 cs2 hshape hc2 (DELIM_no_eq hmem) hsub]
  rw [s1, s2, s3, DELIM_repl hmem]
  rw [attrValue_underscore_tuple name d _ (DELIM_get hmem) (DELIM_ne_underscore hmem)]
  rfl

/-- Witness for C10: `pos = "-3,4"` raises. -/
theorem C10_witness : parse_attribute ( "\t\tpos = \"-3,4\"".data) [] = none :=
  C10_negative_tuple_error ( "pos".data) ',' [] '3' ( ",4\"".data)
    (by decide) (by decide) (by decide)

theorem parse_attribute_keyword (name : Chars) (elem : Obj) (c : Char)
    (cs : Chars) (hn : name = c :: cs) (hc : pyIsSpace c = false)
    (he : '=' ∉ name) (w : Chars) (j : JVal)
    (hw : DEFAULT_VALUES_MAP (pyStrip [ '\n', '"'] (repl (pyStrip [ '"'] w))) = some j)
    (hj : j ≠ JVal.str ( "MAIN".data)) (hsub : hasSub eqSep w = false) :
    parse_attribute ( '\t' :: '\t' :: (name ++ (eqSep ++ w))) elem =
      some (odSet (repl name) j elem) := by
  rw [parse_attribute_eq name w elem c cs hn hc he hsub]
  unfold attrValue
  rw [hw]
  show some (attrStore (repl name) j elem) = some (odSet (repl name) j elem)
  rw [attrStore_of_ne_MAIN _ _ _ hj]

/-- Claim C2: keyword literals win over delimiter parsing — an attribute
whose field name is in the delimiter map but whose raw value (after quote
stripping) is `"true"` stores the boolean `true`, not a tuple; and for any
field name the literals `"false"` and `"none"` store boolean `false` and
`None`. -/
theorem C2_keyword_precedence :
    (∀ (name : Chars) (d : Char) (elem : Obj), (name, d) ∈ DELIMITER_MAP →
      parse_attribute ( '\t' :: '\t' :: (name ++ (eqSep ++ "\"true\"".data)))
        elem = some (odSet name (JVal.bool true) elem)) ∧
    (∀ (name : Chars) (elem : Obj) (c : Char) (cs : Chars), name = c :: cs →
      pyIsSpace c = false → '=' ∉ name →
      parse_attribute ( '\t' :: '\t' :: (name ++ (eqSep ++ "\"false\"".data)))
        elem = some (odSet (repl name) (JVal.bool false) elem) ∧
      parse_attribute ( '\t' :: '\t' :: (name ++ (eqSep ++ "\"none\"".data)))
        elem = some (odSet (repl name) JVal.null elem)) := by
  constructor
  · intro name d elem hmem
    obtain ⟨c2, cs2, hshape, hc2⟩ := DELIM_shape hmem
    have h := parse_attribute_keyword name elem c2 cs2 hshape hc2
      (DELIM_no_eq hmem) ( "\"true\"".data) (JVal.bool true) rfl
      (by simp) (by decide)
    rw [h, DELIM_repl hmem]
  · intro name elem c cs hn hc he
    exact ⟨parse_attribute_keyword name elem c cs hn hc he
        ( "\"false\"".data) (JVal.bool false) rfl (by simp) (by decide),
      parse_attribute_keyword name elem c cs hn hc he
        ( "\"none\"".data) JVal.null rfl (by simp) (by decide)⟩

/-- Witness for C2: `pos = "true"` stores boolean `true` (not a tuple),
and a hyphenated field `is-pane = "none"` stores `None` under `is_pane`. -/
theorem C2_witness :
    parse_attribute ( "\t\tpos = \"true\"".data) [] =
      some (odSet ( "pos".data) (JVal.bool true) []) ∧
    parse_attribute ( "\t\tis-pane = \"none\"".data) [] =
      some (odSet (repl ( "is-pane".data)) JVal.null []) :=
  ⟨C2_keyword_precedence.1 ( "pos".data) ',' [] (by decide),
   (C2_keyword_precedence.2 ( "is-pane".data) [] 'i' ( "s-pane".data) rfl
      (by decide) (by decide)).2⟩

/-! ### Characterisation of the menu-entry loop -/

theorem appendAction_some {ck : SVal} {entry : JVal}
    {cats1 cats2 : List (SVal × Obj)}
    (h : appendAction ck entry cats1 = some cats2) :
    ∃ rec0 acts, odGet ck cats1 = some rec0 ∧
      odGet kActions rec0 = some (JVal.arr acts) ∧
      cats2 = odSet ck (odSet kActions (JVal.arr (acts ++ [entry])) rec0) cats1 := by
  unfold appendAction at h
  cases hrec : odGet ck cats1 with
  | none =>
    rw [hrec] at h
    exact absurd h (by simp)
  | some rec0 =>
    rw [hrec] at h
    simp only [Option.bind_eq_bind', Option.some_bind', Option.some_bind] at h
    cases hacts : odGet kActions rec0 with
    | none =>
      rw [hacts] at h
      exact absurd h (by simp)
    | some actsV =>
      rw [hacts] at h
      simp only [Option.bind_eq_bind', Option.some_bind', Option.some_bind] at h
      cases actsV <;> simp at h
      rename_i acts
      exact ⟨rec0, acts, rfl, hacts, h.symm⟩

theorem menuStepCat_some {cats gs} {menu : Obj} {cnameV : JVal}
    {cats2 : List (SVal × Obj)} {gs2 : List SVal}
    (h : menuStepCat cats gs menu cnameV = some (cats2, gs2)) :
    ∃ ck, toKey cnameV = some ck ∧
      groupAdd gs (odRemove kCategory menu) = some gs2 ∧
      appendAction ck (collapseEntry menu)
        (match odGet ck cats with
         | some _ => cats
         | none => cats ++ [(ck, synthCat cnameV)]) = some cats2 := by
  unfold menuStepCat at h
  cases hk : toKey cnameV with
  | none =>
    rw [hk] at h
    exact absurd h (by simp)
  | some ck =>
    rw [hk] at h
    simp only [Option.bind_eq_bind', Option.some_bind', Option.some_bind] at h
    cases hg : groupAdd gs (odRemove kCategory menu) with
    | none =>
      rw [hg] at h
      exact absurd h (by simp)
    | some gs1 =>
      rw [hg] at h
      simp only [Option.bind_eq_bind', Option.some_bind', Option.some_bind] at h
      cases ha : appendAction ck (collapseEntry menu)
          (match odGet ck cats with
           | some _ => cats
           | none => cats ++ [(ck, synthCat cnameV)]) with
      | none =>
        rw [ha] at h
        exact absurd h (by simp)
      | some cats3 =>
        rw [ha] at h
        simp only [Option.bind_eq_bind', Option.some_bind', Option.some_bind] at h
        simp at h
        exact ⟨ck, rfl, by rw [h.2], by rw [← h.1]; exact ha⟩

theorem collapseEntry_separator {menu : Obj}
    (hname : odGet kName menu = none ∨ odGet kName menu = some (JVal.str [])) :
    collapseEntry menu = JVal.obj [(kType, JVal.str ( "SEPARATOR".data))] := by
  unfold collapseEntry
  have h1 : odGet kName (odRemove kCategory menu) = odGet kName menu :=
    odGet_odRemove_ne _ (by decide)
  rcases hname with h | h <;> simp [h1, h, jtruthy, truthy]

/-- Claim C6: a menu entry carrying a `category` field whose `name` is
absent or empty is appended to that category's `actions` list as exactly
the record `{type: "SEPARATOR"}`, every other field discarded. -/
theorem C6_separator (cats : List (SVal × Obj)) (gs : List SVal) (menu : Obj)
    (cnameV : JVal) (cats2 : List (SVal × Obj)) (gs2 : List SVal)
    (hcat : odGet kCategory menu = some cnameV)
    (hname : odGet kName menu = none ∨ odGet kName menu = some (JVal.str []))
    (hstep : menuStep (cats, gs) menu = some (cats2, gs2)) :
    ∃ (ck : SVal) (rec2 : Obj) (prev : List JVal),
      toKey cnameV = some ck ∧ odGet ck cats2 = some rec2 ∧
      odGet kActions rec2 = some (JVal.arr
        (prev ++ [JVal.obj [(kType, JVal.str ( "SEPARATOR".data))]])) := by
  unfold menuStep at hstep
  rw [hcat] at hstep
  obtain ⟨ck, hk, hg, ha⟩ := menuStepCat_some hstep
  obtain ⟨rec0, acts, hrec, hacts, hcats2⟩ := appendAction_some ha
  refine ⟨ck, odSet kActions (JVal.arr
    (acts ++ [collapseEntry menu])) rec0, acts, hk, ?_, ?_⟩
  · rw [hcats2]
    exact odGet_odSet_self _ _ _
  · rw [collapseEntry_separator hname]
    rw [← collapseEntry_separator hname]
    exact odGet_odSet_self _ _ _

/-- Witness for C6: a nameless entry `{category: "c"}` becomes a bare
separator in the synthesized category's actions. -/
theorem C6_witness :
    ∃ (ck : SVal) (rec2 : Obj) (prev : List JVal),
      toKey (JVal.str ( "c".data)) = some ck ∧
      odGet ck (odSet (SVal.str ( "c".data))
        (odSet kActions (JVal.arr
          [JVal.obj [(kType, JVal.str ( "SEPARATOR".data))]])
          (synthCat (JVal.str ( "c".data))))
        [(SVal.str ( "c".data), synthCat (JVal.str ( "c".data)))]) = some rec2 ∧
      odGet kActions rec2 = some (JVal.arr
        (prev ++ [JVal.obj [(kType, JVal.str ( "SEPARATOR".data))]])) := by
  have h := C6_separator [] [] [(kCategory, JVal.str ( "c".data))]
    (JVal.str ( "c".data))
    (odSet (SVal.str ( "c".data))
      (odSet kActions (JVal.arr
        [JVal.obj [(kType, JVal.str ( "SEPARATOR".data))]])
        (synthCat (JVal.str ( "c".data))))
      [(SVal.str ( "c".data), synthCat (JVal.str ( "c".data)))]) []
    rfl (Or.inl rfl) rfl
  exact h

/-! ### The category-free invariant (claim C5) -/

theorem mem_odSet {K : Type} [DecidableEq K] {V : Type} {k : K} {v : V}
    {l : List (K × V)} {p : K × V} (h : p ∈ odSet k v l) :
    p = (k, v) ∨ p ∈ l := by
  induction l with
  | nil => simpa [odSet] using h
  | cons q rest ih =>
    obtain ⟨k2, v2⟩ := q
    by_cases h2 : k2 = k
    · simp [odSet, h2] at h
      rcases h with h | h
      · exact Or.inl (by simp [h])
      · exact Or.inr (by simp [h])
    · simp [odSet, h2] at h
      rcases h with h | h
      · exact Or.inr (by simp [h])
      · rcases ih (by simpa using h) with h3 | h3
        · exact Or.inl h3
        · exact Or.inr (by simp [h3])

theorem mem_of_odGet {K : Type} [DecidableEq K] {V : Type} {k : K} {v : V}
    {l : List (K × V)} (h : odGet k l = some v) : (k, v) ∈ l := by
  induction l with
  | nil => simp [odGet] at h
  | cons q rest ih =>
    obtain ⟨k2, v2⟩ := q
    by_cases h2 : k2 = k
    · subst h2
      simp [odGet] at h
      simp [h]
    · simp [odGet, h2] at h
      simp [ih h]

theorem menuStepPlain_some {cats : List (SVal × Obj)} {gs : List SVal}
    {menu : Obj} {cats2 : List (SVal × Obj)} {gs2 : List SVal}
    (h : menuStepPlain cats gs menu = some (cats2, gs2)) :
    ∃ nameV key, odGet kName (plainEntry menu) = some nameV ∧
      toKey nameV = some key ∧
      cats2 = odSet key (plainEntry menu) cats ∧ gs2 = gs := by
  unfold menuStepPlain at h
  cases hname : odGet kName (plainEntry menu) with
  | none =>
    rw [hname] at h
    exact absurd h (by simp)
  | some nameV =>
    rw [hname] at h
    simp only [Option.bind_eq_bind', Option.some_bind', Option.some_bind] at h
    cases hkey : toKey nameV with
    | none =>
      rw [hkey] at h
      exact absurd h (by simp)
    | some key =>
      rw [hkey] at h
      simp at h
      exact ⟨nameV, key, rfl, hkey, h.1.symm, h.2.symm⟩

theorem collapseEntry_no_category (menu : Obj) :
    ∃ o, collapseEntry menu = JVal.obj o ∧ odGet kCategory o = none := by
  unfold collapseEntry
  by_cases hj : jtruthy (odGet kName (odRemove kCategory menu)) = true
  · refine ⟨odSet kType (JVal.str ( "ACTION".data)) (odRemove kCategory menu),
      by rw [if_pos hj], ?_⟩
    rw [odGet_odSet_ne _ _ (by decide)]
    exact odGet_odRemove_self _ _
  · exact ⟨[(kType, JVal.str ( "SEPARATOR".data))], by rw [if_neg hj], rfl⟩

theorem menuStep_preserves_catFree {cats : List (SVal × Obj)} {gs : List SVal}
    {menu : Obj} {cats2 : List (SVal × Obj)} {gs2 : List SVal}
    (hstep : menuStep (cats, gs) menu = some (cats2, gs2))
    (hinv : ∀ p ∈ cats, catFree p.2) : ∀ p ∈ cats2, catFree p.2 := by
  unfold menuStep at hstep
  cases hcat : odGet kCategory menu with
  | none =>
    rw [hcat] at hstep
    obtain ⟨nameV, key, hname, hkey, hcats2, hgs2⟩ := menuStepPlain_some hstep
    intro p hp
    subst hcats2
    rcases mem_odSet hp with h | h
    · subst h
      constructor
      · show odGet kCategory (plainEntry menu) = none
        unfold plainEntry
        rw [odGet_odRemove_ne _ (by decide), odGet_odRemove_ne _ (by decide),
          odGet_odSet_ne _ _ (by decide), odGet_odSet_ne _ _ (by decide)]
        exact hcat
      · intro a ha
        unfold actionsOf plainEntry at ha
        rw [odGet_odRemove_ne _ (by decide), odGet_odRemove_ne _ (by decide),
          odGet_odSet_self] at ha
        simp at ha
    · exact hinv p h
  | some cnameV =>
    rw [hcat] at hstep
    obtain ⟨ck, hk, hg, ha⟩ := menuStepCat_some hstep
    obtain ⟨rec0, acts, hrec, hacts, hcats2⟩ := appendAction_some ha
    have hinv1 : ∀ p ∈ (match odGet ck cats with
        | some _ => cats
        | none => cats ++ [(ck, synthCat cnameV)]), catFree p.2 := by
      cases hget : odGet ck cats with
      | some r =>
        intro p hp
        exact hinv p hp
      | none =>
        intro p hp
        have hp2 : p ∈ cats ++ [(ck, synthCat cnameV)] := hp
        rcases List.mem_append.mp hp2 with h | h
        · exact hinv p h
        · have h2 : p = (ck, synthCat cnameV) := by simpa using h
          subst h2
          refine ⟨rfl, ?_⟩
          intro a ha2
          unfold actionsOf at ha2
          rw [show odGet kActions (synthCat cnameV) = some (JVal.arr [])
            from rfl] at ha2
          simp at ha2
    intro p hp
    subst hcats2
    rcases mem_odSet hp with h | h
    · subst h
      have hrecFree : catFree rec0 := hinv1 (ck, rec0) (mem_of_odGet hrec)
      constructor
      · show odGet kCategory _ = none
        rw [odGet_odSet_ne _ _ (by decide)]
        exact hrecFree.1
      · intro a ha2
        unfold actionsOf at ha2
        rw [odGet_odSet_self] at ha2
        simp at ha2
        rcases ha2 with h2 | h2
        · exact hrecFree.2 a (by unfold actionsOf; rw [hacts]; simpa using h2)
        · obtain ⟨o, ho, hoc⟩ := collapseEntry_no_category menu
          rw [ho] at h2
          injection h2 with h3
          rw [h3]
          exact hoc
    · exact hinv1 p h

theorem processMenus_catFree {entries : List Obj}
    {acc : List (SVal × Obj) × List SVal} {cats2 : List (SVal × Obj)}
    {gs2 : List SVal} (hfold : List.foldlM menuStep acc entries = some (cats2, gs2))
    (hinv : ∀ p ∈ acc.1, catFree p.2) : ∀ p ∈ cats2, catFree p.2 := by
  induction entries generalizing acc with
  | nil =>
    obtain ⟨catsA, gsA⟩ := acc
    simp [List.foldlM] at hfold
    rw [← hfold.1]
    exact hinv
  | cons e rest ih =>
    rw [List.foldlM_cons] at hfold
    cases hstep : menuStep acc e with
    | none =>
      rw [hstep] at hfold
      exact absurd hfold (by simp)
    | some acc1 =>
      rw [hstep] at hfold
      simp only [Option.bind_eq_bind', Option.some_bind', Option.some_bind] at hfold
      obtain ⟨cats1, gs1⟩ := acc1
      obtain ⟨catsA, gsA⟩ := acc
      exact ih hfold (menuStep_preserves_catFree hstep hinv)

/-- Claim C5: after the menu-bar pass of `post_process`, no record in the
produced `menus` list — nor any nested action record — still carries a
`category` field. -/
theorem C5_no_lingering_category (mb mb2 : Obj)
    (h : post_menubar mb = some mb2) :
    ∀ j ∈ menusOf mb2, ∃ o, j = JVal.obj o ∧ odGet kCategory o = none ∧
      ∀ a : Obj, JVal.obj a ∈ actionsOf o → odGet kCategory a = none := by
  unfold post_menubar at h
  cases hcv : odGet kControls mb with
  | none =>
    rw [hcv] at h
    exact absurd h (by simp)
  | some cv =>
    rw [hcv] at h
    simp only [Option.bind_eq_bind', Option.some_bind', Option.some_bind] at h
    cases cv with
    | null => exact absurd h (by simp)
    | bool b => exact absurd h (by simp)
    | int n => exact absurd h (by simp)
    | tuple t => exact absurd h (by simp)
    | strs t => exact absurd h (by simp)
    | str t => exact absurd h (by simp)
    | obj o => exact absurd h (by simp)
    | arr l =>
      replace h : ((l.mapM asObj).bind fun entries =>
          (processMenus entries).bind fun pr =>
            pure (odSet kGroups (JVal.arr (pr.2.map SVal.toJVal))
              (odSet kMenus (JVal.arr (pr.1.map (fun p => JVal.obj p.2)))
                (odSet kType (JVal.str ( "MENUBAR".data))
                  (odRemove kControls mb))))) = some mb2 := h
      cases hme : l.mapM asObj with
      | none =>
        rw [hme] at h
        exact absurd h (by simp)
      | some entries =>
        rw [hme] at h
        simp only [Option.bind_eq_bind', Option.some_bind', Option.some_bind] at h
        cases hpm : processMenus entries with
        | none =>
          rw [hpm] at h
          exact absurd h (by simp)
        | some pr =>
          obtain ⟨cats, gsv⟩ := pr
          rw [hpm] at h
          simp only [Option.bind_eq_bind', Option.some_bind', Option.some_bind] at h
          simp at h
          intro j hj
          have hmenus : menusOf mb2 = cats.map (fun p => JVal.obj p.2) := by
            unfold menusOf
            rw [← h, odGet_odSet_ne _ _ (by decide), odGet_odSet_self]
          rw [hmenus] at hj
          obtain ⟨p, hp, hpj⟩ := List.mem_map.mp hj
          have hfree : catFree p.2 := by
            unfold processMenus at hpm
            exact processMenus_catFree hpm (by intro q hq; simp at hq) p hp
          exact ⟨p.2, hpj.symm, hfree.1, hfree.2⟩

/-- Witness for C5 on a one-entry menu bar. -/
theorem C5_witness :
    post_menubar [(kControls, JVal.arr [JVal.obj [(kName, JVal.str ( "File".data))]])] =
      some [(kType, JVal.str ( "MENUBAR".data)),
        (kMenus, JVal.arr [JVal.obj [(kName, JVal.str ( "File".data)),
          (kType, JVal.str ( "MENU".data)), (kActions, JVal.arr [])]]),
        (kGroups, JVal.arr [])] ∧
    (∀ j ∈ menusOf [(kType, JVal.str ( "MENUBAR".data)),
        (kMenus, JVal.arr [JVal.obj [(kName, JVal.str ( "File".data)),
          (kType, JVal.str ( "MENU".data)), (kActions, JVal.arr [])]]),
        (kGroups, JVal.arr [])],
      ∃ o, j = JVal.obj o ∧ odGet kCategory o = none ∧
        ∀ a : Obj, JVal.obj a ∈ actionsOf o → odGet kCategory a = none) :=
  ⟨rfl, C5_no_lingering_category
    [(kControls, JVal.arr [JVal.obj [(kName, JVal.str ( "File".data))]])] _ rfl⟩

/-! ### Aggregation lemmas (claim C4) -/

theorem odSet_of_get {K : Type} [DecidableEq K] {V : Type} {k : K} {v : V}
    {l : List (K × V)} (h : odGet k l = some v) : odSet k v l = l := by
  induction l with
  | nil => simp [odGet] at h
  | cons q rest ih =>
    obtain ⟨k2, v2⟩ := q
    by_cases h2 : k2 = k
    · subst h2
      simp [odGet] at h
      simp [odSet, h]
    · simp [odGet, h2] at h
      simp [odSet, h2, ih h]

theorem odGet_kName_plainEntry (e : Obj) :
    odGet kName (plainEntry e) = odGet kName e := by
  unfold plainEntry
  rw [odGet_odRemove_ne _ (by decide), odGet_odRemove_ne _ (by decide),
    odGet_odSet_ne _ _ (by decide), odGet_odSet_ne _ _ (by decide)]

theorem toKey_toJVal {v : JVal} {ck : SVal} (h : toKey v = some ck) :
    v = SVal.toJVal ck := by
  cases v <;> simp [toKey] at h <;> rw [← h] <;> rfl

theorem refsCat_false_of_no_category {ck : SVal} {e : Obj}
    (h : odGet kCategory e = none) : refsCat ck e = false := by
  unfold refsCat
  rw [h]
  rfl

theorem refsCat_iff {ck : SVal} {e : Obj} {cnameV : JVal} {ck2 : SVal}
    (hcat : odGet kCategory e = some cnameV) (hk : toKey cnameV = some ck2) :
    refsCat ck e = (ck2 == ck) := by
  unfold refsCat
  rw [hcat]
  show (toKey cnameV == some ck) = (ck2 == ck)
  rw [hk]
  by_cases h2 : ck2 = ck
  · subst h2
    simp
  · have ha : ((some ck2 : Option SVal) == some ck) = false := by
      simp [h2]
    have hb : (ck2 == ck) = false := by
      simp [h2]
    rw [ha, hb]

/-- Aggregation: when the record under `ck` already exists with actions
`old`, and no categoryless entry keys to `ck`, running the loop appends
the collapsed `ck`-entries in order. -/
theorem processMenus_append_acc (entries : List Obj) :
    ∀ (cats : List (SVal × Obj)) (gs : List SVal)
      (cats2 : List (SVal × Obj)) (gs2 : List SVal) (ck : SVal) (rec0 : Obj)
      (old : List JVal),
    List.foldlM menuStep (cats, gs) entries = some (cats2, gs2) →
    (∀ e ∈ entries, odGet kCategory e = none →
      (odGet kName e).bind toKey ≠ some ck) →
    odGet ck cats = some rec0 →
    odGet kActions rec0 = some (JVal.arr old) →
    odGet ck cats2 =
      some (odSet kActions (JVal.arr (old ++ collapseAll ck entries)) rec0) := by
  induction entries with
  | nil =>
    intro cats gs cats2 gs2 ck rec0 old hfold hplain hrec hold
    simp [List.foldlM] at hfold
    rw [← hfold.1]
    unfold collapseAll
    simp only [List.filter_nil, List.map_nil, List.append_nil]
    rw [odSet_of_get hold, hrec]
  | cons e rest ih =>
    intro cats gs cats2 gs2 ck rec0 old hfold hplain hrec hold
    rw [List.foldlM_cons] at hfold
    cases hstep : menuStep (cats, gs) e with
    | none =>
      rw [hstep] at hfold
      exact absurd hfold (by simp)
    | some acc1 =>
      rw [hstep] at hfold
      simp only [Option.bind_eq_bind', Option.some_bind', Option.some_bind] at hfold
      obtain ⟨cats1, gs1⟩ := acc1
      unfold menuStep at hstep
      cases hcat : odGet kCategory e with
      | none =>
        rw [hcat] at hstep
        obtain ⟨nameV, key, hname, hkey, hcats1, hgs1⟩ := menuStepPlain_some hstep
        have hkck : key ≠ ck := by
          intro hkk
          subst hkk
          refine hplain e (by simp) hcat ?_
          rw [odGet_kName_plainEntry] at hname
          rw [hname]
          simpa using hkey
        have hrec1 : odGet ck cats1 = some rec0 := by
          rw [hcats1, odGet_odSet_ne _ _ hkck]
          exact hrec
        have hcoll : collapseAll ck (e :: rest) = collapseAll ck rest := by
          unfold collapseAll
          rw [List.filter_cons_of_neg (by simp [refsCat_false_of_no_category hcat])]
        rw [hcoll]
        exact ih cats1 gs1 cats2 gs2 ck rec0 old hfold
          (fun x hx => hplain x (by simp [hx])) hrec1 hold
      | some cnameV =>
        rw [hcat] at hstep
        obtain ⟨ck2, hk2, hg2, ha2⟩ := menuStepCat_some hstep
        obtain ⟨rec0b, actsb, hrecb, hactsb, hcats1⟩ := appendAction_some ha2
        by_cases hcks : ck2 = ck
        · subst hcks
          rw [show (match odGet ck2 cats with
              | some _ => cats
              | none => cats ++ [(ck2, synthCat cnameV)]) = cats from by
            rw [hrec]] at hrecb hcats1
          rw [hrec] at hrecb
          have hx : rec0 = rec0b := by injection hrecb
          subst hx
          rw [hold] at hactsb
          have hax : JVal.arr old = JVal.arr actsb := by injection hactsb
          have hax2 : old = actsb := by injection hax
          subst hax2
          have hrec1 : odGet ck2 cats1 =
              some (odSet kActions (JVal.arr (old ++ [collapseEntry e])) rec0) := by
            rw [hcats1]
            exact odGet_odSet_self _ _ _
          have hacts1 : odGet kActions
              (odSet kActions (JVal.arr (old ++ [collapseEntry e])) rec0) =
              some (JVal.arr (old ++ [collapseEntry e])) :=
            odGet_odSet_self _ _ _
          have hres := ih cats1 gs1 cats2 gs2 ck2 _ _ hfold
            (fun x hx2 => hplain x (by simp [hx2])) hrec1 hacts1
          rw [hres, odSet_odSet_self]
          have hcoll : collapseAll ck2 (e :: rest) =
              collapseEntry e :: collapseAll ck2 rest := by
            unfold collapseAll
            rw [List.filter_cons_of_pos (by rw [refsCat_iff hcat hk2]; simp)]
            rfl
          rw [hcoll, List.append_assoc]
          rfl
        · have hrec1 : odGet ck cats1 = some rec0 := by
            rw [hcats1, odGet_odSet_ne _ _ hcks]
            cases hget2 : odGet ck2 cats with
            | some r => rw [show (match (some r : Option Obj) with
                | some _ => cats
                | none => cats ++ [(ck2, synthCat cnameV)]) = cats from rfl]
                        exact hrec
            | none => rw [show (match (none : Option Obj) with
                | some _ => cats
                | none => cats ++ [(ck2, synthCat cnameV)]) =
                  cats ++ [(ck2, synthCat cnameV)] from rfl]
                      exact odGet_append_of_some _ hrec
          have hcoll : collapseAll ck (e :: rest) = collapseAll ck rest := by
            unfold collapseAll
            rw [List.filter_cons_of_neg (by rw [refsCat_iff hcat hk2]; simp [hcks])]
          rw [hcoll]
          exact ih cats1 gs1 cats2 gs2 ck rec0 old hfold
            (fun x hx => hplain x (by simp [hx])) hrec1 hold

/-- Creation: when no record for `ck` exists yet and no categoryless entry
keys to `ck`, the loop creates the synthesized record at the first
reference and accumulates exactly the collapsed `ck`-entries. -/
theorem processMenus_fresh (entries : List Obj) :
    ∀ (cats : List (SVal × Obj)) (gs : List SVal)
      (cats2 : List (SVal × Obj)) (gs2 : List SVal) (ck : SVal),
    List.foldlM menuStep (cats, gs) entries = some (cats2, gs2) →
    (∀ e ∈ entries, odGet kCategory e = none →
      (odGet kName e).bind toKey ≠ some ck) →
    odGet ck cats = none →
    odGet ck cats2 =
      (if entries.any (refsCat ck) then
        some (odSet kActions (JVal.arr (collapseAll ck entries))
          (synthCat (SVal.toJVal ck)))
      else none) := by
  induction entries with
  | nil =>
    intro cats gs cats2 gs2 ck hfold hplain hget
    simp [List.foldlM] at hfold
    rw [← hfold.1]
    simpa using hget
  | cons e rest ih =>
    intro cats gs cats2 gs2 ck hfold hplain hget
    rw [List.foldlM_cons] at hfold
    cases hstep : menuStep (cats, gs) e with
    | none =>
      rw [hstep] at hfold
      exact absurd hfold (by simp)
    | some acc1 =>
      rw [hstep] at hfold
      simp only [Option.bind_eq_bind', Option.some_bind', Option.some_bind] at hfold
      obtain ⟨cats1, gs1⟩ := acc1
      unfold menuStep at hstep
      cases hcat : odGet kCategory e with
      | none =>
        rw [hcat] at hstep
        obtain ⟨nameV, key, hname, hkey, hcats1, hgs1⟩ := menuStepPlain_some hstep
        have hkck : key ≠ ck := by
          intro hkk
          subst hkk
          refine hplain e (by simp) hcat ?_
          rw [odGet_kName_plainEntry] at hname
          rw [hname]
          simpa using hkey
        have hget1 : odGet ck cats1 = none := by
          rw [hcats1, odGet_odSet_ne _ _ hkck]
          exact hget
        have hany : (e :: rest).any (refsCat ck) = rest.any (refsCat ck) := by
          simp [refsCat_false_of_no_category hcat]
        have hcoll : collapseAll ck (e :: rest) = collapseAll ck rest := by
          unfold collapseAll
          rw [List.filter_cons_of_neg (by simp [refsCat_false_of_no_category hcat])]
        rw [hany, hcoll]
        exact ih cats1 gs1 cats2 gs2 ck hfold
          (fun x hx => hplain x (by simp [hx])) hget1
      | some cnameV =>
        rw [hcat] at hstep
        obtain ⟨ck2, hk2, hg2, ha2⟩ := menuStepCat_some hstep
        obtain ⟨rec0b, actsb, hrecb, hactsb, hcats1⟩ := appendAction_some ha2
        by_cases hcks : ck2 = ck
        · subst hcks
          have hnv : cnameV = SVal.toJVal ck2 := toKey_toJVal hk2
          subst hnv
          rw [show (match odGet ck2 cats with
              | some _ => cats
              | none => cats ++ [(ck2, synthCat (SVal.toJVal ck2))]) =
              cats ++ [(ck2, synthCat (SVal.toJVal ck2))] from by
            rw [hget]] at hrecb hcats1
          rw [odGet_append_of_none _ hget] at hrecb
          rw [show odGet ck2 [(ck2, synthCat (SVal.toJVal ck2))] =
              some (synthCat (SVal.toJVal ck2)) from by simp [odGet]] at hrecb
          have hx : synthCat (SVal.toJVal ck2) = rec0b := by injection hrecb
          subst hx
          have hax : actsb = [] := by
            have h0 : odGet kActions (synthCat (SVal.toJVal ck2)) =
                some (JVal.arr []) := rfl
            rw [h0] at hactsb
            have hax1 : JVal.arr [] = JVal.arr actsb := by injection hactsb
            have hax2 : ([] : List JVal) = actsb := by injection hax1
            exact hax2.symm
          subst hax
          have hrec1 : odGet ck2 cats1 =
              some (odSet kActions (JVal.arr ([] ++ [collapseEntry e]))
                (synthCat (SVal.toJVal ck2))) := by
            rw [hcats1]
            exact odGet_odSet_self _ _ _
          have hacts1 : odGet kActions
              (odSet kActions (JVal.arr ([] ++ [collapseEntry e]))
                (synthCat (SVal.toJVal ck2))) =
              some (JVal.arr ([] ++ [collapseEntry e])) :=
            odGet_odSet_self _ _ _
          have hres := processMenus_append_acc rest cats1 gs1 cats2 gs2 ck2 _ _
            hfold (fun x hx => hplain x (by simp [hx])) hrec1 hacts1
          rw [hres, odSet_odSet_self]
          have hany : (e :: rest).any (refsCat ck2) = true := by
            rw [List.any_cons, refsCat_iff hcat hk2]
            simp
          rw [hany]
          have hcoll : collapseAll ck2 (e :: rest) =
              collapseEntry e :: collapseAll ck2 rest := by
            unfold collapseAll
            rw [List.filter_cons_of_pos (by rw [refsCat_iff hcat hk2]; simp)]
            rfl
          rw [if_pos rfl, hcoll]
          rfl
        · have hget1 : odGet ck cats1 = none := by
            rw [hcats1, odGet_odSet_ne _ _ hcks]
            cases hget2 : odGet ck2 cats with
            | some r => rw [show (match (some r : Option Obj) with
                | some _ => cats
                | none => cats ++ [(ck2, synthCat cnameV)]) = cats from rfl]
                        exact hget
            | none =>
              rw [show (match (none : Option Obj) with
                | some _ => cats
                | none => cats ++ [(ck2, synthCat cnameV)]) =
                  cats ++ [(ck2, synthCat cnameV)] from rfl]
              rw [odGet_append_of_none _ hget]
              simp [odGet, hcks]
          have hany : (e :: rest).any (refsCat ck) = rest.any (refsCat ck) := by
            rw [List.any_cons, refsCat_iff hcat hk2]
            have hb : (ck2 == ck) = false := by
              simp [hcks]
            rw [hb, Bool.false_or]
          have hcoll : collapseAll ck (e :: rest) = collapseAll ck rest := by
            unfold collapseAll
            rw [List.filter_cons_of_neg (by rw [refsCat_iff hcat hk2]; simp [hcks])]
          rw [hany, hcoll]
          exact ih cats1 gs1 cats2 gs2 ck hfold
            (fun x hx => hplain x (by simp [hx])) hget1

/-- Key order: the keys of the `categories` mapping are the entry keys in
first-seen order. -/
theorem processMenus_keys (entries : List Obj) :
    ∀ (cats : List (SVal × Obj)) (gs : List SVal)
      (cats2 : List (SVal × Obj)) (gs2 : List SVal),
    List.foldlM menuStep (cats, gs) entries = some (cats2, gs2) →
    cats2.map Prod.fst =
      (entries.filterMap keyOf).foldl insKey (cats.map Prod.fst) := by
  induction entries with
  | nil =>
    intro cats gs cats2 gs2 hfold
    simp [List.foldlM] at hfold
    rw [← hfold.1]
    simp
  | cons e rest ih =>
    intro cats gs cats2 gs2 hfold
    rw [List.foldlM_cons] at hfold
    cases hstep : menuStep (cats, gs) e with
    | none =>
      rw [hstep] at hfold
      exact absurd hfold (by simp)
    | some acc1 =>
      rw [hstep] at hfold
      simp only [Option.bind_eq_bind', Option.some_bind', Option.some_bind] at hfold
      obtain ⟨cats1, gs1⟩ := acc1
      unfold menuStep at hstep
      cases hcat : odGet kCategory e with
      | none =>
        rw [hcat] at hstep
        obtain ⟨nameV, key, hname, hkey, hcats1, hgs1⟩ := menuStepPlain_some hstep
        have hkeyOf : keyOf e = some key := by
          unfold keyOf
          rw [hcat]
          show (odGet kName e).bind toKey = some key
          have hname2 : odGet kName e = some nameV := by
            rw [← odGet_kName_plainEntry]
            exact hname
          rw [hname2]
          simpa using hkey
        have hkeys1 : cats1.map Prod.fst = insKey (cats.map Prod.fst) key := by
          rw [hcats1]
          unfold insKey
          by_cases hmem : key ∈ cats.map Prod.fst
          · rw [if_pos hmem]
            exact keys_odSet_of_some _ (by
              intro hno
              rw [← odGet_isSome_iff_mem_keys] at hmem
              rw [hno] at hmem
              simp at hmem)
          · rw [if_neg hmem]
            refine keys_odSet_of_none _ ?_
            rw [← odGet_isSome_iff_mem_keys] at hmem
            cases hg : odGet key cats with
            | none => rfl
            | some r =>
              rw [hg] at hmem
              simp at hmem
        rw [List.filterMap_cons_some hkeyOf, List.foldl_cons, ← hkeys1]
        exact ih cats1 gs1 cats2 gs2 hfold
      | some cnameV =>
        rw [hcat] at hstep
        obtain ⟨ck2, hk2, hg2, ha2⟩ := menuStepCat_some hstep
        obtain ⟨rec0b, actsb, hrecb, hactsb, hcats1⟩ := appendAction_some ha2
        have hkeyOf : keyOf e = some ck2 := by
          unfold keyOf
          rw [hcat]
          rw [show (match (some cnameV : Option JVal) with
            | some c => some c
            | none => odGet kName e) = some cnameV from rfl]
          simpa using hk2
        have hkeys1 : cats1.map Prod.fst = insKey (cats.map Prod.fst) ck2 := by
          rw [hcats1]
          rw [keys_odSet_of_some _ (by rw [hrecb]; simp)]
          unfold insKey
          cases hg : odGet ck2 cats with
          | some r =>
            show List.map Prod.fst cats =
              if ck2 ∈ List.map Prod.fst cats then List.map Prod.fst cats
              else List.map Prod.fst cats ++ [ck2]
            rw [if_pos (by
              rw [← odGet_isSome_iff_mem_keys, hg]
              rfl)]
          | none =>
            show List.map Prod.fst (cats ++ [(ck2, synthCat cnameV)]) =
              if ck2 ∈ List.map Prod.fst cats then List.map Prod.fst cats
              else List.map Prod.fst cats ++ [ck2]
            rw [if_neg (by
              rw [← odGet_isSome_iff_mem_keys, hg]
              simp)]
            simp
        rw [List.filterMap_cons_some hkeyOf, List.foldl_cons, ← hkeys1]
        exact ih cats1 gs1 cats2 gs2 hfold

/-- Counterexample to claim C4: with entries `A(category c)`, a
categoryless menu named `c`, then `B(category c)`, two entries reference
category `c`, but the categoryless entry replaces the category record in
place and the earlier action `A` is discarded: the final record holds only
the action `B`. -/
theorem C4_counterexample :
    processMenus
      [[(kName, JVal.str ( "A".data)), (kCategory, JVal.str ( "c".data))],
       [(kName, JVal.str ( "c".data))],
       [(kName, JVal.str ( "B".data)), (kCategory, JVal.str ( "c".data))]] =
      some ([(SVal.str ( "c".data),
        [(kName, JVal.str ( "c".data)), (kType, JVal.str ( "MENU".data)),
         (kActions, JVal.arr [JVal.obj [(kName, JVal.str ( "B".data)),
           (kType, JVal.str ( "ACTION".data))]])])], []) ∧
    (collapseAll (SVal.str ( "c".data))
      [[(kName, JVal.str ( "A".data)), (kCategory, JVal.str ( "c".data))],
       [(kName, JVal.str ( "c".data))],
       [(kName, JVal.str ( "B".data)), (kCategory, JVal.str ( "c".data))]]).length
      = 2 :=
  ⟨rfl, rfl⟩

/-- Claim C4 (amended): provided no categoryless entry's `name` equals the
category key, every menu entry referencing category `ck` is appended, in
entry order, to the `actions` list of the single category record, which is
created at the first reference with exactly the synthesized shape
`{name, command: "", saved_params: "is_checked", actions}`; and the final
mapping holds the records in first-seen key order. -/
theorem C4_category_aggregation (entries : List Obj)
    (cats2 : List (SVal × Obj)) (gs2 : List SVal) (ck : SVal)
    (hrun : processMenus entries = some (cats2, gs2))
    (hplain : ∀ e ∈ entries, odGet kCategory e = none →
      (odGet kName e).bind toKey ≠ some ck)
    (href : entries.any (refsCat ck) = true) :
    odGet ck cats2 = some
      [(kName, SVal.toJVal ck), (kCommand, JVal.str []),
       (kSavedParams, JVal.str ( "is_checked".data)),
       (kActions, JVal.arr (collapseAll ck entries))] ∧
    cats2.map Prod.fst = (entries.filterMap keyOf).foldl insKey [] := by
  unfold processMenus at hrun
  constructor
  · have h := processMenus_fresh entries [] [] cats2 gs2 ck hrun hplain rfl
    rw [href, if_pos rfl] at h
    rw [h]
    rfl
  · have h := processMenus_keys entries [] [] cats2 gs2 hrun
    simpa using h

/-- Witness for C4 at two actions of the same fresh category. -/
theorem C4_witness :
    odGet (SVal.str ( "c".data))
      [(SVal.str ( "c".data),
        [(kName, JVal.str ( "c".data)), (kCommand, JVal.str []),
         (kSavedParams, JVal.str ( "is_checked".data)),
         (kActions, JVal.arr
           [JVal.obj [(kName, JVal.str ( "A".data)),
              (kType, JVal.str ( "ACTION".data))],
            JVal.obj [(kName, JVal.str ( "B".data)),
              (kType, JVal.str ( "ACTION".data))]])])] =
      some
        [(kName, SVal.toJVal (SVal.str ( "c".data))), (kCommand, JVal.str []),
         (kSavedParams, JVal.str ( "is_checked".data)),
         (kActions, JVal.arr (collapseAll (SVal.str ( "c".data))
           [[(kName, JVal.str ( "A".data)), (kCategory, JVal.str ( "c".data))],
            [(kName, JVal.str ( "B".data)), (kCategory, JVal.str ( "c".data))]]))] ∧
    [(SVal.str ( "c".data),
        [(kName, JVal.str ( "c".data)), (kCommand, JVal.str []),
         (kSavedParams, JVal.str ( "is_checked".data)),
         (kActions, JVal.arr
           [JVal.obj [(kName, JVal.str ( "A".data)),
              (kType, JVal.str ( "ACTION".data))],
            JVal.obj [(kName, JVal.str ( "B".data)),
              (kType, JVal.str ( "ACTION".data))]])])].map Prod.fst =
      (([[(kName, JVal.str ( "A".data)), (kCategory, JVal.str ( "c".data))],
         [(kName, JVal.str ( "B".data)),
          (kCategory, JVal.str ( "c".data))]]).filterMap keyOf).foldl insKey [] :=
  C4_category_aggregation
    [[(kName, JVal.str ( "A".data)), (kCategory, JVal.str ( "c".data))],
     [(kName, JVal.str ( "B".data)), (kCategory, JVal.str ( "c".data))]]
    _ [] (SVal.str ( "c".data)) rfl
    (by
      intro e he h
      simp at he
      rcases he with he | he <;> rw [he] at h <;> exact Option.noConfusion h)
    rfl
